import Mathlib

/-!
Verification of the cluster package of the kobs multi-cluster Kubernetes
gateway (pkg/api/clusters/cluster/cluster.go).  Strings are modelled as
`List Char`, byte streams as the list of delivered characters, and the
Kubernetes API as explicit oracle parameters, so that every operation of the
package becomes a pure function on those inputs.
-/

namespace Kobs

/-- Prepend a character to the first piece of a piece list; used to state the
splitting functions by structural recursion.  On an empty piece list it opens a
fresh piece. -/
def consHead (c : Char) : List (List Char) → List (List Char)
  | [] => [[c]]
  | l :: ls => (c :: l) :: ls

/-- Embedding of Go strings.Split for a one-character separator: the maximal
separator-free pieces of the input, in order.  The result is always nonempty
and keeps empty pieces, exactly as strings.Split does. -/
def splitOnChar (sep : Char) : List Char → List (List Char)
  | [] => [[]]
  | c :: rest =>
    if c = sep then [] :: splitOnChar sep rest
    else consHead c (splitOnChar sep rest)

/-- Reference line split, written from the spec sentence that the emitted lines
must equal the line split of the whole log sequence, with lines ended by a
newline, by a carriage return, or by a carriage-return/newline pair counted as
a single terminator; a nonempty unterminated trailing fragment counts as a
final line.  The flag records that the previous character was a carriage
return, whose line break swallows one immediately following newline. -/
def splitLinesAux : Bool → List Char → List (List Char)
  | _, [] => []
  | skipNL, c :: rest =>
    if skipNL = true ∧ c = '\n' then splitLinesAux false rest
    else if c = '\n' then [] :: splitLinesAux false rest
    else if c = '\r' then [] :: splitLinesAux true rest
    else consHead c (splitLinesAux false rest)

/-- Reference line split of a whole log byte sequence (spec side of claim C1). -/
def splitLines (s : List Char) : List (List Char) :=
  splitLinesAux false s

/-- Drop a trailing carriage return: the extra byte bufio.ReadLine removes
(drop = 2) when a returned line ends in a carriage-return/newline pair. -/
def dropTrailCR (s : List Char) : List Char :=
  if s.getLast? = some '\r' then s.dropLast else s

/-- Embedding of one bufio.Reader.ReadLine call with the 16-byte buffer that
StreamLogs installs (bufio.NewReaderSize(stream, 16)).  bufio buffers the
underlying chunked reads and ReadSlice only returns at the first newline, at a
full buffer, or at end of stream, so the sequence of ReadLine results depends
only on the remaining stream contents and not on the chunk partition delivered
by the network.  Result: none at end of stream (the read error that terminates
the StreamLogs loop), otherwise (line, isPre, remaining) where isPre embeds
the isPrefix flag; a line ending in a carriage return at a full buffer is
shortened by one byte, mirroring the UnreadByte that ReadLine performs so that
a carriage-return/newline pair never straddles the buffer boundary. -/
def readLine (rest : List Char) : Option (List Char × Bool × List Char) :=
  if rest = [] then none
  else
    let pre := rest.takeWhile (fun c => decide (c ≠ '\n'))
    if 16 ≤ pre.length then
      let f := rest.take 16
      if f.getLast? = some '\r' then some (f.dropLast, true, rest.drop 15)
      else some (f, true, rest.drop 16)
    else if pre.length = rest.length then
      some (rest, false, [])
    else
      some (dropTrailCR pre, false, rest.drop (pre.length + 1))

/-- Models lines[0] = lastLine + lines[0] from StreamLogs. -/
def prependHead (p : List Char) : List (List Char) → List (List Char)
  | [] => [p]
  | l :: ls => (p ++ l) :: ls

/-- Embedding of the StreamLogs read loop (cluster.go lines 278-302): read a
line, split it on carriage returns, glue the carried lastLine onto the first
piece, hold back the final piece while the read was a prefix of a longer line,
and emit every completed piece to the connection in order.  Fuel bounds the
iteration count; every iteration consumes at least one character of the
remaining stream, so content.length + 1 fuel runs the loop to its end. -/
def streamLoopF : Nat → List Char → List Char → List (List Char)
  | 0, _, _ => []
  | fuel + 1, rest, lastLine =>
    match readLine rest with
    | none => []
    | some (data, isPre, rest2) =>
      let ls0 := splitOnChar '\r' data
      let ls := if 0 < lastLine.length then prependHead lastLine ls0 else ls0
      if isPre then ls.dropLast ++ streamLoopF fuel rest2 (ls.getLastD [])
      else ls ++ streamLoopF fuel rest2 []

/-- The ordered sequence of lines StreamLogs emits to the caller-supplied
connection for a complete log payload. -/
def streamEmits (content : List Char) : List (List Char) :=
  streamLoopF (content.length + 1) content []

/-- The append-accumulation loop pattern (var xs []T; for ...: xs =
append(xs, x)) that the package uses to build result slices. -/
def collectAppend {α : Type} (l : List α) : List α :=
  l.foldl (fun acc x => acc ++ [x]) []

/-- The namespace cache of a Cluster (cluster.go Cache struct): the cached
namespace names and the time of the last successful fetch.  Time is modelled
as an integer count of time units. -/
structure Cache where
  namespaces : List String
  namespacesLastFetch : Int
deriving DecidableEq

/-- Embedding of Cluster.GetNamespaces (cluster.go lines 107-132).  now is the
time.Now() sample (the later time.Now() that stamps the cache is modelled by
the same instant), upstream the outcome of the Kubernetes namespace-list call
already projected to the object names the extraction loop reads.  Returns the
result delivered to the caller, the cache after the call, and the number of
upstream list calls performed. -/
def getNamespaces (now cacheDuration : Int) (cache : Cache)
    (upstream : Except String (List String)) :
    Except String (List String) × Cache × Nat :=
  if now + (-1) * cacheDuration < cache.namespacesLastFetch then
    (Except.ok cache.namespaces, cache, 0)
  else
    match upstream with
    | Except.error e => (Except.error e, cache, 1)
    | Except.ok items =>
      (Except.ok (collectAppend items),
        { namespaces := collectAppend items, namespacesLastFetch := now }, 1)

/-- One in-flight GetNamespaces call in the interleaving model for claim C3:
pc 0 = about to evaluate the cache-freshness test, 1 = about to perform the
upstream namespace-list call, 2 = about to write the cache and return,
3 = returned. -/
structure NsCaller where
  pc : Nat
  result : Option (List String)
deriving DecidableEq

/-- Shared state of the interleaving model: the cluster cache and the number
of upstream namespace-list calls performed so far. -/
structure NsWorld where
  cache : Cache
  upstreamCalls : Nat
deriving DecidableEq

/-- One atomic step of one GetNamespaces caller, following the statement order
of cluster.go lines 110-131: the freshness check reads the shared cache, the
fetch performs the upstream call, and the last step writes both cache fields
and returns the fresh list.  GetNamespaces takes no lock, so steps of
concurrent callers may interleave freely. -/
def nsCallerStep (now cacheDuration : Int) (fresh : List String)
    (w : NsWorld) (c : NsCaller) : NsWorld × NsCaller :=
  if c.pc = 0 then
    if now + (-1) * cacheDuration < w.cache.namespacesLastFetch then
      (w, { pc := 3, result := some w.cache.namespaces })
    else (w, { c with pc := 1 })
  else if c.pc = 1 then
    ({ w with upstreamCalls := w.upstreamCalls + 1 }, { c with pc := 2 })
  else if c.pc = 2 then
    ({ w with cache := { namespaces := fresh, namespacesLastFetch := now } },
      { pc := 3, result := some fresh })
  else (w, c)

/-- Run a schedule over two concurrent GetNamespaces callers: a false entry
steps the first caller, a true entry the second. -/
def nsRun (now cacheDuration : Int) (fresh1 fresh2 : List String) :
    List Bool → NsWorld × NsCaller × NsCaller → NsWorld × NsCaller × NsCaller
  | [], s => s
  | b :: sched, (w, c1, c2) =>
    if b then
      let s2 := nsCallerStep now cacheDuration fresh2 w c2
      nsRun now cacheDuration fresh1 fresh2 sched (s2.1, c1, s2.2)
    else
      let s1 := nsCallerStep now cacheDuration fresh1 w c1
      nsRun now cacheDuration fresh1 fresh2 sched (s1.1, s1.2, c2)

/-- A printer column of a custom resource definition version: the fields of
apiextensionsv1.CustomResourceColumnDefinition that loadCRDs copies, which are
also exactly the fields of the package's own CRDColumn struct. -/
structure PrinterColumn where
  description : String
  jsonPath : String
  name : String
  colType : String
deriving DecidableEq

/-- One API version of a custom resource definition: the fields of
apiextensionsv1.CustomResourceDefinitionVersion that loadCRDs reads, plus the
served flag of that type which the C4 claim counts entries by.  schema models
the Schema pointer, its value the OpenAPIV3Schema pointer, whose value is that
schema's Description. -/
structure CRDVersion where
  name : String
  served : Bool
  schema : Option (Option String)
  additionalPrinterColumns : Option (List PrinterColumn)
deriving DecidableEq

/-- One custom resource definition as decoded by loadCRDs (the fields of
apiextensionsv1.CustomResourceDefinition that it reads). -/
structure CRDef where
  group : String
  plural : String
  kind : String
  scope : String
  versions : List CRDVersion
deriving DecidableEq

/-- The internal CRD format of the cluster package (cluster.go CRD struct). -/
structure CRD where
  path : String
  resource : String
  title : String
  description : String
  scope : String
  columns : List PrinterColumn
deriving DecidableEq

/-- The entry loadCRDs appends for one version of one definition (cluster.go
lines 533-560): group/version path, plural name, kind, the version's schema
description when both schema pointers are set, the scope, and the printer
columns copied field by field by the inner append loop (a nil column slice
contributes no columns). -/
def crdOfVersion (d : CRDef) (v : CRDVersion) : CRD :=
  { path := d.group ++ "/" ++ v.name
    resource := d.plural
    title := d.kind
    description :=
      match v.schema with
      | some (some desc) => desc
      | _ => ""
    scope := d.scope
    columns :=
      match v.additionalPrinterColumns with
      | none => []
      | some cols =>
        cols.foldl (fun acc col =>
          acc ++ [{ description := col.description, jsonPath := col.jsonPath,
                    name := col.name, colType := col.colType }]) [] }

/-- The double loop of loadCRDs over definitions and their versions, appending
one CRD entry per listed version to the cluster's list. -/
def appendCRDs (init : List CRD) (defs : List CRDef) : List CRD :=
  defs.foldl (fun acc d =>
    d.versions.foldl (fun acc2 v => acc2 ++ [crdOfVersion d v]) acc) init

/-- The number of served API versions over a definition list: the quantity the
C4 claim counts CRD entries by. -/
def servedVersionCount (defs : List CRDef) : Nat :=
  (defs.map (fun d => (d.versions.filter (fun v => v.served)).length)).sum

/-- State of the loadCRDs retry loop (cluster.go lines 508-566): the current
backoff offset in time units, the cluster's CRD list, whether the loop has
terminated, and the trace of sleeps performed. -/
structure LoadState where
  offset : Nat
  crds : List CRD
  done : Bool
  sleeps : List Nat
deriving DecidableEq

/-- One iteration of the loadCRDs loop given the outcome of the current
fetch-and-decode attempt: on failure (fetch error or unmarshal error alike)
sleep for the current offset, double it and continue; on success append one
entry per version of every definition and break.  After the break the state
no longer changes. -/
def loadStep (attempt : Option (List CRDef)) (s : LoadState) : LoadState :=
  if s.done then s
  else
    match attempt with
    | none => { s with sleeps := s.sleeps ++ [s.offset], offset := s.offset * 2 }
    | some defs => { s with crds := appendCRDs s.crds defs, done := true }

/-- The loadCRDs loop after n iterations, from the initial offset of 30 and
the empty CRD list a fresh cluster carries; attempts gives the outcome of each
fetch-and-decode attempt. -/
def loadRun (attempts : Nat → Option (List CRDef)) : Nat → LoadState
  | 0 => { offset := 30, crds := [], done := false, sleeps := [] }
  | n + 1 => loadStep (attempts n) (loadRun attempts n)

/-- The character class of slugifyRe = regexp.MustCompile("[^a-z0-9]+")
(cluster.go line 41), as a predicate for the characters NOT matched by the
expression: lowercase ASCII letters and digits. -/
def isAlnum (c : Char) : Bool :=
  decide ((97 ≤ c.toNat ∧ c.toNat ≤ 122) ∨ (48 ≤ c.toNat ∧ c.toNat ≤ 57))

/-- Embedding of slugifyRe.ReplaceAllString(s, "-"): replace every maximal run
of characters outside [a-z0-9] by a single dash (regexp matching is
leftmost-longest, so a run is consumed as one match).  The flag records that
the scanner is inside such a run. -/
def collapseAux : Bool → List Char → List Char
  | _, [] => []
  | inRun, c :: rest =>
    if isAlnum c then c :: collapseAux false rest
    else if inRun then collapseAux true rest
    else '-' :: collapseAux true rest

/-- Embedding of strings.Trim(s, "-"): remove leading and trailing dashes. -/
def trimDash (s : List Char) : List Char :=
  ((s.dropWhile (fun c => decide (c = '-'))).reverse.dropWhile
      (fun c => decide (c = '-'))).reverse

/-- The cluster-name normalization of NewCluster (cluster.go line 602):
lowercase, collapse runs of characters outside [a-z0-9] to single dashes, trim
leading and trailing dashes.  strings.ToLower is modelled by Char.toLower; the
idempotence argument only relies on lowercase letters, digits and the dash
being fixed points of lowercasing, which also holds for Go's full Unicode
mapping. -/
def normalizeName (s : List Char) : List Char :=
  trimDash (collapseAux false (s.map Char.toLower))

/-- Invariant of normalized names: no two adjacent dashes. -/
def noDoubleDash (l : List Char) : Prop :=
  List.Chain' (fun a b => ¬(a = '-' ∧ b = '-')) l

/-- Modelled from the spec: terminal.IsValidShell of the terminal package,
whose source is not among the files under verification (only its caller in
cluster.go is).  The spec fixes it as membership of the requested shell in a
fixed allow-list of shells, sh and bash. -/
def isValidShell (shell : String) : Bool :=
  [("sh"), ("bash")].contains shell

/-- Outcome of GetTerminal (cluster.go lines 306-323): a request-URL parse
error, rejection of a shell outside the allow-list, or an upstream exec
session started via terminal.StartProcess with the given shell as command. -/
inductive TerminalOutcome where
  | parseError : TerminalOutcome
  | invalidShell : TerminalOutcome
  | execStarted : String → TerminalOutcome
deriving DecidableEq

/-- Embedding of GetTerminal: parse the exec request URL (outcome supplied by
the parseOk oracle, net/url being an external library), then check the shell
against the allow-list, and only then start the upstream exec process. -/
def getTerminal (parseOk : Bool) (shell : String) : TerminalOutcome :=
  if parseOk = false then TerminalOutcome.parseError
  else if isValidShell shell = false then TerminalOutcome.invalidShell
  else TerminalOutcome.execStarted shell

/-- The line separator GetLogs joins and terminates its output with. -/
def nlcr : List Char := ['\n', '\r']

/-- Embedding of strings.Join(parts, sep). -/
def joinWith (sep : List Char) : List (List Char) → List Char
  | [] => []
  | [l] => l
  | l :: ls => l ++ sep ++ joinWith sep ls

/-- The filtering loop of GetLogs under a compiled regular expression
(cluster.go lines 246-251): keep the lines the matcher accepts, in order. -/
def collectMatching (m : List Char → Bool) (lines : List (List Char)) :
    List (List Char) :=
  lines.foldl (fun acc line => if m line then acc ++ [line] else acc) []

/-- Embedding of GetLogs after a successful log fetch (cluster.go lines
232-253).  payload is the fetched log payload, regex the request's regular
expression and compile the outcome of regexp.Compile (an external library):
none for a malformed expression, otherwise the compiled matcher.  Returns the
formatted text delivered to the caller, or none for the error return. -/
def getLogs (compile : String → Option (List Char → Bool)) (regex : String)
    (payload : List Char) : Option (List Char) :=
  if regex = ("") then
    some (joinWith nlcr (collectAppend (splitOnChar '\n' payload)) ++ nlcr)
  else
    match compile regex with
    | none => none
    | some m =>
      some (joinWith nlcr (collectMatching m (splitOnChar '\n' payload)) ++ nlcr)

/-- The upstream request GetResources issues against the cluster REST client:
a namespaced single-object get, a cluster-scoped single-object get, or a list
request carrying one query parameter (cluster.go lines 137-165). -/
inductive K8sRequest where
  | objectNamespaced (path ns resource name : String) : K8sRequest
  | objectCluster (path resource name : String) : K8sRequest
  | listWithParam (path ns resource paramName param : String) : K8sRequest
deriving DecidableEq

/-- Embedding of GetResources: route the call exactly along the source's
branch structure and forward the upstream response — bytes or error —
untouched.  The second component records the upstream requests performed, in
order. -/
def getResources (upstream : K8sRequest → Except String (List UInt8))
    (ns name path resource paramName param : String) :
    Except String (List UInt8) × List K8sRequest :=
  if name ≠ ("") then
    if ns ≠ ("") then
      (upstream (K8sRequest.objectNamespaced path ns resource name),
        [K8sRequest.objectNamespaced path ns resource name])
    else
      (upstream (K8sRequest.objectCluster path resource name),
        [K8sRequest.objectCluster path resource name])
  else
    (upstream (K8sRequest.listWithParam path ns resource paramName param),
      [K8sRequest.listWithParam path ns resource paramName param])

/-- The request routing as the C9 claim states it: a single object when name
is set (namespace-scoped exactly when a namespace is set), otherwise a list
carrying the query parameter. -/
def routedRequest (ns name path resource paramName param : String) : K8sRequest :=
  if name ≠ ("") then
    if ns ≠ ("") then K8sRequest.objectNamespaced path ns resource name
    else K8sRequest.objectCluster path resource name
  else K8sRequest.listWithParam path ns resource paramName param

/-- A definition list exercising claim C4 at a concrete input: one definition
with a single API version that is not marked served. -/
def unservedDef : CRDef :=
  { group := ("example.com"), plural := ("widgets"), kind := ("Widget"),
    scope := ("Namespaced"),
    versions := [{ name := ("v1"), served := false, schema := none,
                   additionalPrinterColumns := none }] }

/-- A concrete attempt-outcome sequence for the loadCRDs loop: two failures
followed by success with an empty definition list. -/
def wAttempts : Nat → Option (List CRDef) :=
  fun n => if n < 2 then none else some []

/-- A concrete upstream oracle answering every request with one byte. -/
def wUpstream : K8sRequest → Except String (List UInt8) :=
  fun _ => Except.ok [7]

/-- A concrete regexp-compile oracle: the expression a compiles to a matcher
for lines containing the letter a, everything else fails to compile. -/
def wCompile : String → Option (List Char → Bool) :=
  fun r => if r = ("a") then some (fun l => l.contains 'a') else none

example : streamEmits ['a', '\n', 'b', '\n'] = [['a'], ['b']] := by decide
example : streamEmits ['a', '\r', 'b', '\n'] = [['a'], ['b']] := by decide
example : streamEmits ['a', '\r', '\n', 'b', '\n'] = [['a'], ['b']] := by decide
example : splitLines ['a', '\r', '\n', 'b', '\n'] = [['a'], ['b']] := by decide
example : streamEmits ['a', '\r'] = [['a'], []] := by decide
example : splitLines ['a', '\r'] = [['a']] := by decide

/-- Accumulator form of the append-collection loop. -/
theorem foldl_append_singleton {α β : Type} (f : α → β) :
    ∀ (l : List α) (acc : List β),
      l.foldl (fun a x => a ++ [f x]) acc = acc ++ l.map f
  | [], acc => by simp
  | x :: l, acc => by
    simp [List.foldl, foldl_append_singleton f l]

/-- The append-collection loop returns its input list unchanged. -/
theorem collectAppend_eq {α : Type} (l : List α) : collectAppend l = l := by
  have h := foldl_append_singleton (fun x : α => x) l []
  simpa [collectAppend] using h

/-- The GetLogs filtering loop keeps exactly the matching lines, in order. -/
theorem collectMatching_eq_filter (m : List Char → Bool) (lines : List (List Char)) :
    collectMatching m lines = lines.filter m := by
  suffices h : ∀ (l : List (List Char)) (acc : List (List Char)),
      l.foldl (fun a line => if m line then a ++ [line] else a) acc = acc ++ l.filter m by
    simpa [collectMatching] using h lines []
  intro l
  induction l with
  | nil => intro acc; simp
  | cons x l ih =>
    intro acc
    by_cases hx : m x <;> simp [List.foldl, hx, ih]

/-- Claim C2: a GetNamespaces call within the cache TTL returns the cached
sequence unchanged and performs no upstream call; a call at or past the TTL
performs exactly one upstream namespace-list call and, on success, replaces
the cached list and lastFetch with the fresh result and returns it. -/
theorem getNamespaces_ttl (now ttl : Int) (cache : Cache)
    (up : Except String (List String)) :
    (now - cache.namespacesLastFetch < ttl →
      getNamespaces now ttl cache up = (Except.ok cache.namespaces, cache, 0))
    ∧ (ttl ≤ now - cache.namespacesLastFetch →
      (getNamespaces now ttl cache up).2.2 = 1
      ∧ ∀ l, up = Except.ok l →
        getNamespaces now ttl cache up =
          (Except.ok l, { namespaces := l, namespacesLastFetch := now }, 1)) := by
  constructor
  · intro h
    unfold getNamespaces
    rw [if_pos (by omega)]
  · intro h
    unfold getNamespaces
    rw [if_neg (by omega)]
    constructor
    · cases up <;> simp
    · intro l hl
      subst hl
      simp [collectAppend_eq]

/-- Witness for claim C2 at concrete inputs: a fresh cache is returned
untouched with no upstream call, an expired one is refreshed. -/
theorem getNamespaces_ttl_witness :
    getNamespaces 100 10 { namespaces := [("a")], namespacesLastFetch := 95 }
        (Except.ok [("b")]) =
      (Except.ok [("a")], { namespaces := [("a")], namespacesLastFetch := 95 }, 0)
    ∧ getNamespaces 100 10 { namespaces := [("a")], namespacesLastFetch := 50 }
        (Except.ok [("b")]) =
      (Except.ok [("b")], { namespaces := [("b")], namespacesLastFetch := 100 }, 1) := by
  constructor
  · exact (getNamespaces_ttl 100 10
      { namespaces := [("a")], namespacesLastFetch := 95 } (Except.ok [("b")])).1
      (by decide)
  · exact ((getNamespaces_ttl 100 10
      { namespaces := [("a")], namespacesLastFetch := 50 } (Except.ok [("b")])).2
      (by decide)).2 [("b")] rfl

/-- Claim C10: when the upstream namespace-list call fails, GetNamespaces
returns that error and leaves both cache fields exactly as they were. -/
theorem getNamespaces_error_keeps_cache (now ttl : Int) (cache : Cache)
    (e : String) (h : ttl ≤ now - cache.namespacesLastFetch) :
    getNamespaces now ttl cache (Except.error e) = (Except.error e, cache, 1) := by
  unfold getNamespaces
  rw [if_neg (by omega)]

/-- Witness for claim C10 at a concrete expired cache. -/
theorem getNamespaces_error_keeps_cache_witness :
    getNamespaces 100 10 { namespaces := [("a")], namespacesLastFetch := 50 }
        (Except.error ("boom")) =
      (Except.error ("boom"),
        { namespaces := [("a")], namespacesLastFetch := 50 }, 1) :=
  getNamespaces_error_keeps_cache 100 10
    { namespaces := [("a")], namespacesLastFetch := 50 } ("boom") (by decide)

/-- Claim C3, behavior of the code at the failing schedule: two concurrent
GetNamespaces callers that both pass the freshness test on an expired cache
before either writes it perform two upstream namespace-list calls, not one,
and the cache ends as whichever caller wrote last. -/
theorem getNamespaces_concurrent_duplicate_fetch :
    ((nsRun 100 10 [("x")] [("y")] [false, true, false, true, false, true]
        ({ cache := { namespaces := [("old")], namespacesLastFetch := 0 },
           upstreamCalls := 0 },
          { pc := 0, result := none }, { pc := 0, result := none })).1).upstreamCalls = 2
    ∧ ((nsRun 100 10 [("x")] [("y")] [false, true, false, true, false, true]
        ({ cache := { namespaces := [("old")], namespacesLastFetch := 0 },
           upstreamCalls := 0 },
          { pc := 0, result := none }, { pc := 0, result := none })).1).cache.namespaces
      = [("y")] := by
  decide

/-- Claim C4, counterexample: a definition whose only version is not served
still yields one CRD entry, while counting one entry per served version
predicts none. -/
theorem loadCRDs_served_count_cx :
    (appendCRDs [] [unservedDef]).length = 1
    ∧ servedVersionCount [unservedDef] = 0
    ∧ (appendCRDs [] [unservedDef]).length ≠ servedVersionCount [unservedDef] := by
  decide

/-- Claim C4 as amended: after a successful discovery fetch the CRD list has
exactly one entry per listed API version of each definition — served or not —
so its length is the sum of the per-definition version counts, and each entry
carries the group/version path, the plural name, the kind, that version's
schema description, the copied scope and the printer columns copied one to
one in order. -/
theorem loadCRDs_entries (defs : List CRDef) :
    appendCRDs [] defs = defs.flatMap (fun d => d.versions.map (crdOfVersion d))
    ∧ (appendCRDs [] defs).length = (defs.map (fun d => d.versions.length)).sum
    ∧ ∀ d v, crdOfVersion d v =
        { path := d.group ++ ("/") ++ v.name
          resource := d.plural
          title := d.kind
          description := (v.schema.getD none).getD ("")
          scope := d.scope
          columns := v.additionalPrinterColumns.getD [] } := by
  have hflat : ∀ (ds : List CRDef) (init : List CRD),
      appendCRDs init ds = init ++ ds.flatMap (fun d => d.versions.map (crdOfVersion d)) := by
    intro ds
    induction ds with
    | nil => intro init; simp [appendCRDs]
    | cons d ds ih =>
      intro init
      have hinner := foldl_append_singleton (crdOfVersion d) d.versions init
      simp only [appendCRDs, List.foldl] at ih ⊢
      rw [hinner, ih, List.flatMap_cons, List.append_assoc]
  refine ⟨hflat defs [], ?_, ?_⟩
  · rw [hflat defs []]
    simp only [List.nil_append, List.length_flatMap, Function.comp_def,
      List.length_map]
  · intro d v
    unfold crdOfVersion
    cases hs : v.schema with
    | none =>
      cases hc : v.additionalPrinterColumns with
      | none => simp
      | some cols => simp [foldl_append_singleton, List.map_id]
    | some inner =>
      cases inner with
      | none =>
        cases hc : v.additionalPrinterColumns with
        | none => simp
        | some cols => simp [foldl_append_singleton, List.map_id]
      | some desc =>
        cases hc : v.additionalPrinterColumns with
        | none => simp
        | some cols => simp [foldl_append_singleton, List.map_id]

/-- The loadCRDs loop state while every attempt so far has failed: not done,
no entries, offset doubled per failure, and the sleep trace 30, 60, 120, ... -/
theorem loadRun_all_fail (attempts : Nat → Option (List CRDef)) :
    ∀ k, (∀ j, j < k → attempts j = none) →
      loadRun attempts k =
        { offset := 30 * 2 ^ k, crds := [], done := false,
          sleeps := (List.range k).map (fun i => 30 * 2 ^ i) } := by
  intro k
  induction k with
  | zero => intro _; simp [loadRun]
  | succ k ih =>
    intro hfail
    have hk : attempts k = none := hfail k (by omega)
    have hprev := ih (fun j hj => hfail j (by omega))
    have h1 : 30 * 2 ^ k * 2 = 30 * 2 ^ (k + 1) := by ring
    have h2 : (List.range k).map (fun i => 30 * 2 ^ i) ++ [30 * 2 ^ k]
        = (List.range (k + 1)).map (fun i => 30 * 2 ^ i) := by
      rw [List.range_succ, List.map_append]
      rfl
    simp [loadRun, hprev, loadStep, hk, h1, h2]

/-- A finished loadCRDs loop never changes state again. -/
theorem loadStep_done (attempt : Option (List CRDef)) (s : LoadState)
    (h : s.done = true) : loadStep attempt s = s := by
  simp [loadStep, h]

/-- Claim C6: loadCRDs surfaces no error to callers — while attempts fail the
cluster simply still carries the empty CRD list — it sleeps before each retry
with a delay starting at 30 time units that doubles after every failed
attempt, it retries as long as attempts fail, and it terminates exactly when
one fetch-and-decode attempt succeeds, appending the decoded entries. -/
theorem loadCRDs_retry_backoff (attempts : Nat → Option (List CRDef)) (k : Nat)
    (hfail : ∀ j, j < k → attempts j = none) :
    ((loadRun attempts k).done = false
      ∧ (loadRun attempts k).crds = []
      ∧ (loadRun attempts k).sleeps = (List.range k).map (fun i => 30 * 2 ^ i))
    ∧ (∀ defs, attempts k = some defs →
        (loadRun attempts (k + 1)).done = true
        ∧ (loadRun attempts (k + 1)).crds = appendCRDs [] defs
        ∧ (loadRun attempts (k + 1)).sleeps = (List.range k).map (fun i => 30 * 2 ^ i)
        ∧ ∀ j, loadRun attempts (k + 1 + j) = loadRun attempts (k + 1)) := by
  have hprev := loadRun_all_fail attempts k hfail
  refine ⟨by rw [hprev]; exact ⟨rfl, rfl, rfl⟩, ?_⟩
  intro defs hk
  have hsucc : loadRun attempts (k + 1) =
      { offset := 30 * 2 ^ k, crds := appendCRDs [] defs, done := true,
        sleeps := (List.range k).map (fun i => 30 * 2 ^ i) } := by
    simp [loadRun, hprev, loadStep, hk]
  refine ⟨by rw [hsucc], by rw [hsucc], by rw [hsucc], ?_⟩
  intro j
  induction j with
  | zero => rfl
  | succ j ih =>
    have : k + 1 + (j + 1) = (k + 1 + j) + 1 := by omega
    rw [this]
    show loadStep (attempts (k + 1 + j)) (loadRun attempts (k + 1 + j)) = _
    rw [ih, loadStep_done _ _ (by rw [hsucc])]

/-- Witness for claim C6: with two failing attempts and then a successful
one, the loop sleeps 30 then 60, holds no entries while failing, and is done
right after the success. -/
theorem loadCRDs_retry_backoff_witness :
    (loadRun wAttempts 2).done = false
    ∧ (loadRun wAttempts 2).crds = []
    ∧ (loadRun wAttempts 2).sleeps = [30, 60]
    ∧ (loadRun wAttempts 3).done = true
    ∧ (loadRun wAttempts 3).crds = [] := by
  have h := loadCRDs_retry_backoff wAttempts 2 (fun j hj => by
    have hcase : j = 0 ∨ j = 1 := by omega
    rcases hcase with h0 | h1
    · rw [h0]; rfl
    · rw [h1]; rfl)
  have hs := h.2 [] rfl
  refine ⟨h.1.1, h.1.2.1, ?_, hs.1, by rw [hs.2.1]; rfl⟩
  rw [h.1.2.2]
  rfl

/-- Claim C7: GetTerminal rejects a shell outside the fixed allow-list without
opening any upstream exec connection, while an allow-listed shell such as sh
or bash passes validation and proceeds to open the exec session; zsh and a
shell string with an injected command are rejected. -/
theorem getTerminal_validates_shell :
    (∀ parseOk shell s, getTerminal parseOk shell = TerminalOutcome.execStarted s →
      isValidShell shell = true)
    ∧ isValidShell ("sh") = true
    ∧ isValidShell ("bash") = true
    ∧ isValidShell ("zsh") = false
    ∧ isValidShell ("bash; rm -rf /") = false
    ∧ (∀ shell, isValidShell shell = true →
        getTerminal true shell = TerminalOutcome.execStarted shell) := by
  refine ⟨?_, by decide, by decide, by decide, by decide, ?_⟩
  · intro parseOk shell s h
    unfold getTerminal at h
    by_cases hp : parseOk = false
    · rw [if_pos hp] at h
      exact absurd h (by simp)
    · rw [if_neg hp] at h
      by_cases hv : isValidShell shell = false
      · rw [if_pos hv] at h
        exact absurd h (by simp)
      · simpa using hv
  · intro shell hv
    unfold getTerminal
    simp [hv]

/-- Witness for claim C7: sh is allow-listed and starts the exec session. -/
theorem getTerminal_validates_shell_witness :
    getTerminal true ("sh") = TerminalOutcome.execStarted ("sh") :=
  getTerminal_validates_shell.2.2.2.2.2 ("sh") (by decide)

/-- Claim C8: on a successful fetch GetLogs returns the payload's
newline-split lines — all of them when no regular expression is supplied,
otherwise exactly the matching lines in original order — joined with the \n\r
terminator, and a regular expression that fails to compile produces an error
rather than unfiltered output. -/
theorem getLogs_formats_and_filters
    (compile : String → Option (List Char → Bool)) (regex : String)
    (payload : List Char) :
    (regex = ("") →
      getLogs compile regex payload =
        some (joinWith nlcr (splitOnChar '\n' payload) ++ nlcr))
    ∧ (∀ m, regex ≠ ("") → compile regex = some m →
      getLogs compile regex payload =
        some (joinWith nlcr ((splitOnChar '\n' payload).filter m) ++ nlcr))
    ∧ (regex ≠ ("") → compile regex = none →
      getLogs compile regex payload = none) := by
  refine ⟨?_, ?_, ?_⟩
  · intro h
    simp [getLogs, h, collectAppend_eq]
  · intro m hne hc
    simp [getLogs, hne, hc, collectMatching_eq_filter]
  · intro hne hc
    simp [getLogs, hne, hc]

/-- Witness for claim C8: filtering a two-line payload with a matcher for
lines containing the letter a keeps exactly the first line. -/
theorem getLogs_formats_and_filters_witness :
    getLogs wCompile ("a") ['a', '\n', 'b'] = some ['a', '\n', '\r'] := by
  have h := (getLogs_formats_and_filters wCompile ("a") ['a', '\n', 'b']).2.1
    (fun l => l.contains 'a') (by decide) rfl
  rw [h]
  rfl

/-- Claim C9: GetResources fetches a single object when name is nonempty —
namespace-scoped exactly when a namespace is given — and otherwise issues one
list request carrying the query parameter; in every case it performs exactly
that one upstream request and hands the upstream bytes or error back
unmodified. -/
theorem getResources_routes_and_forwards
    (upstream : K8sRequest → Except String (List UInt8))
    (ns name path resource paramName param : String) :
    getResources upstream ns name path resource paramName param =
      (upstream (routedRequest ns name path resource paramName param),
        [routedRequest ns name path resource paramName param])
    ∧ (name ≠ ("") → ns ≠ ("") →
        routedRequest ns name path resource paramName param =
          K8sRequest.objectNamespaced path ns resource name)
    ∧ (name ≠ ("") → ns = ("") →
        routedRequest ns name path resource paramName param =
          K8sRequest.objectCluster path resource name)
    ∧ (name = ("") →
        routedRequest ns name path resource paramName param =
          K8sRequest.listWithParam path ns resource paramName param) := by
  unfold getResources routedRequest
  by_cases h1 : name = ("") <;> by_cases h2 : ns = ("") <;> simp [h1, h2]

/-- Witness for claim C9: a namespaced single-object get is routed as such and
the oracle's bytes come back untouched. -/
theorem getResources_routes_and_forwards_witness :
    getResources wUpstream ("team-a") ("pod-1") ("api/v1") ("pods") ("") ("") =
      (Except.ok [7],
        [K8sRequest.objectNamespaced ("api/v1") ("team-a") ("pods") ("pod-1")]) := by
  have h := getResources_routes_and_forwards wUpstream
    ("team-a") ("pod-1") ("api/v1") ("pods") ("") ("")
  rw [h.1, h.2.1 (by decide) (by decide)]
  rfl

/-- Lowercasing fixes the characters a normalized name is built from. -/
theorem toLower_fixed {c : Char} (h : isAlnum c = true ∨ c = '-') :
    c.toLower = c := by
  rcases h with h | h
  · simp only [isAlnum, decide_eq_true_eq] at h
    unfold Char.toLower
    rw [if_neg (by omega)]
  · rw [h]
    decide

/-- An alphanumeric character is not the dash. -/
theorem alnum_ne_dash {c : Char} (h : isAlnum c = true) : ¬(c = '-') := by
  intro hc
  rw [hc] at h
  exact absurd h (by decide)

/-- Every character the run-collapsing pass emits is alphanumeric or a dash. -/
theorem collapseAux_mem : ∀ (b : Bool) (s : List Char) (c : Char),
    c ∈ collapseAux b s → isAlnum c = true ∨ c = '-'
  | b, [], c => by simp [collapseAux]
  | b, x :: rest, c => by
    intro hc
    by_cases hx : isAlnum x = true
    · rw [collapseAux, if_pos hx] at hc
      rcases List.mem_cons.mp hc with h | h
      · exact Or.inl (h ▸ hx)
      · exact collapseAux_mem false rest c h
    · rw [collapseAux, if_neg hx] at hc
      cases b with
      | true => exact collapseAux_mem true rest c (by simpa using hc)
      | false =>
        rcases List.mem_cons.mp (by simpa using hc) with h | h
        · exact Or.inr h
        · exact collapseAux_mem true rest c h

/-- Inside a run, the collapsing pass next emits an alphanumeric character. -/
theorem collapseAux_true_head : ∀ (s : List Char) (c : Char),
    (collapseAux true s).head? = some c → isAlnum c = true
  | [], c => by simp [collapseAux]
  | x :: rest, c => by
    intro hc
    by_cases hx : isAlnum x = true
    · rw [collapseAux, if_pos hx] at hc
      simp only [List.head?_cons, Option.some.injEq] at hc
      exact hc ▸ hx
    · rw [collapseAux, if_neg hx, if_pos rfl] at hc
      exact collapseAux_true_head rest c hc

/-- The collapsing pass never emits two adjacent dashes. -/
theorem collapseAux_noDD : ∀ (b : Bool) (s : List Char),
    noDoubleDash (collapseAux b s)
  | b, [] => by simp [collapseAux, noDoubleDash]
  | b, x :: rest => by
    by_cases hx : isAlnum x = true
    · rw [noDoubleDash, collapseAux, if_pos hx, List.chain'_cons']
      refine ⟨?_, collapseAux_noDD false rest⟩
      intro y _ hpair
      exact alnum_ne_dash hx hpair.1
    · cases b with
      | true =>
        rw [noDoubleDash, collapseAux, if_neg hx, if_pos rfl]
        exact collapseAux_noDD true rest
      | false =>
        rw [noDoubleDash, collapseAux, if_neg hx]
        simp only [Bool.false_eq_true, if_false, List.chain'_cons']
        refine ⟨?_, collapseAux_noDD true rest⟩
        intro y hy hpair
        exact alnum_ne_dash (collapseAux_true_head rest y hy) hpair.2

/-- Starting the collapsing pass inside or outside a run is the same when the
input does not begin with a run character. -/
theorem collapseAux_true_of_head (s : List Char)
    (h : ∀ c, s.head? = some c → isAlnum c = true) :
    collapseAux true s = collapseAux false s := by
  cases s with
  | nil => rfl
  | cons x rest =>
    have hx := h x rfl
    rw [collapseAux, collapseAux, if_pos hx, if_pos hx]

/-- The collapsing pass fixes strings of alphanumerics and isolated dashes. -/
theorem collapseAux_id : ∀ (t : List Char),
    (∀ c ∈ t, isAlnum c = true ∨ c = '-') → noDoubleDash t →
    collapseAux false t = t
  | [] => by intros; rfl
  | x :: rest => by
    intro hmem hdd
    have hrest : ∀ c ∈ rest, isAlnum c = true ∨ c = '-' :=
      fun c hc => hmem c (List.mem_cons_of_mem x hc)
    have hddr : noDoubleDash rest := List.Chain'.tail hdd
    rcases hmem x (List.mem_cons_self x rest) with hx | hx
    · rw [collapseAux, if_pos hx, collapseAux_id rest hrest hddr]
    · have hxd : isAlnum x = false := by
        rcases Bool.eq_false_or_eq_true (isAlnum x) with h | h
        · exact absurd hx (alnum_ne_dash h)
        · exact h
      rw [collapseAux, hxd]
      simp only [Bool.false_eq_true, if_false]
      have hhead : ∀ c, rest.head? = some c → isAlnum c = true := by
        intro c hc
        have hpair := (List.chain'_cons'.mp (hx ▸ hdd)).1 c hc
        have hcr : c ∈ rest := by
          cases rest with
          | nil => simp at hc
          | cons y t =>
            simp only [List.head?_cons, Option.some.injEq] at hc
            exact hc ▸ List.mem_cons_self y t
        rcases hrest c hcr with h | h
        · exact h
        · exact absurd ⟨rfl, h⟩ hpair
      rw [collapseAux_true_of_head rest hhead, collapseAux_id rest hrest hddr, hx]

/-- The head of a dropWhile result fails the dropped predicate. -/
theorem dropWhile_head_not {α : Type} {p : α → Bool} : ∀ (l : List α) (c : α),
    (l.dropWhile p).head? = some c → p c = false
  | [], c => by simp
  | x :: rest, c => by
    intro hc
    by_cases hx : p x
    · rw [List.dropWhile_cons, if_pos hx] at hc
      exact dropWhile_head_not rest c hc
    · rw [List.dropWhile_cons, if_neg hx] at hc
      simp only [List.head?_cons, Option.some.injEq] at hc
      rw [hc] at hx
      simpa using hx

/-- Membership survives dropWhile. -/
theorem mem_of_mem_dropWhile {α : Type} {p : α → Bool} : ∀ (l : List α) (c : α),
    c ∈ l.dropWhile p → c ∈ l
  | [], c => by simp
  | x :: rest, c => by
    intro hc
    by_cases hx : p x
    · rw [List.dropWhile_cons, if_pos hx] at hc
      exact List.mem_cons_of_mem x (mem_of_mem_dropWhile rest c hc)
    · rwa [List.dropWhile_cons, if_neg hx] at hc

/-- A nonempty dropWhile result ends where the input ends. -/
theorem getLast?_dropWhile {α : Type} {p : α → Bool} : ∀ (l : List α),
    l.dropWhile p ≠ [] → (l.dropWhile p).getLast? = l.getLast?
  | [] => by simp
  | x :: rest => by
    intro hne
    by_cases hx : p x
    · rw [List.dropWhile_cons, if_pos hx] at hne ⊢
      have hrne : rest ≠ [] := by
        intro h
        rw [h] at hne
        exact hne rfl
      rw [getLast?_dropWhile rest hne]
      cases rest with
      | nil => exact absurd rfl hrne
      | cons y t => rw [List.getLast?_cons_cons]
    · rw [List.dropWhile_cons, if_neg hx]

/-- No-adjacent-dashes survives dropWhile. -/
theorem noDD_dropWhile {p : Char → Bool} : ∀ (l : List Char),
    noDoubleDash l → noDoubleDash (l.dropWhile p)
  | [] => fun h => h
  | x :: rest => by
    intro h
    by_cases hx : p x
    · rw [List.dropWhile_cons, if_pos hx]
      exact noDD_dropWhile rest (List.Chain'.tail h)
    · rwa [List.dropWhile_cons, if_neg hx]

/-- No-adjacent-dashes survives reversal. -/
theorem noDD_reverse (l : List Char) (h : noDoubleDash l) :
    noDoubleDash l.reverse := by
  rw [noDoubleDash, List.chain'_reverse]
  exact List.Chain'.imp (fun a b hab hpair => hab ⟨hpair.2, hpair.1⟩) h

/-- dropWhile is the identity when the head fails the predicate. -/
theorem dropWhile_eq_self {α : Type} {p : α → Bool} (l : List α)
    (h : ∀ c, l.head? = some c → p c = false) : l.dropWhile p = l := by
  cases l with
  | nil => rfl
  | cons x rest =>
    rw [List.dropWhile_cons, if_neg (by rw [h x rfl]; simp)]

/-- Trimming fixes a string with no dash at either end. -/
theorem trimDash_id (t : List Char)
    (h1 : ∀ c, t.head? = some c → ¬(c = '-'))
    (h2 : ∀ c, t.getLast? = some c → ¬(c = '-')) : trimDash t = t := by
  unfold trimDash
  rw [dropWhile_eq_self t (fun c hc => by simpa using h1 c hc)]
  rw [dropWhile_eq_self t.reverse
    (fun c hc => by simpa using h2 c (by rwa [List.head?_reverse] at hc))]
  exact List.reverse_reverse t

/-- Lowercasing fixes a string of alphanumerics and dashes. -/
theorem map_toLower_id : ∀ (t : List Char),
    (∀ c ∈ t, isAlnum c = true ∨ c = '-') → t.map Char.toLower = t
  | [] => by intros; rfl
  | x :: rest => by
    intro hmem
    rw [List.map_cons, toLower_fixed (hmem x (List.mem_cons_self x rest)),
      map_toLower_id rest (fun c hc => hmem c (List.mem_cons_of_mem x hc))]

/-- Every character of a normalized name is alphanumeric or a dash. -/
theorem normalizeName_mem (s : List Char) :
    ∀ c ∈ normalizeName s, isAlnum c = true ∨ c = '-' := by
  intro c hc
  unfold normalizeName trimDash at hc
  rw [List.mem_reverse] at hc
  have hc2 := mem_of_mem_dropWhile _ c hc
  rw [List.mem_reverse] at hc2
  have hc3 := mem_of_mem_dropWhile _ c hc2
  exact collapseAux_mem false _ c hc3

/-- A normalized name has no two adjacent dashes. -/
theorem normalizeName_noDD (s : List Char) : noDoubleDash (normalizeName s) := by
  unfold normalizeName trimDash
  exact noDD_reverse _ (noDD_dropWhile _
    (noDD_reverse _ (noDD_dropWhile _ (collapseAux_noDD false _))))

/-- A normalized name does not end with a dash. -/
theorem normalizeName_lastOK (s : List Char) :
    ∀ c, (normalizeName s).getLast? = some c → ¬(c = '-') := by
  intro c hc
  unfold normalizeName trimDash at hc
  rw [List.getLast?_reverse] at hc
  have := dropWhile_head_not _ c hc
  simp only [decide_eq_false_iff_not] at this
  exact this

/-- A normalized name does not begin with a dash. -/
theorem normalizeName_headOK (s : List Char) :
    ∀ c, (normalizeName s).head? = some c → ¬(c = '-') := by
  intro c hc
  unfold normalizeName trimDash at hc
  rw [List.head?_reverse] at hc
  by_cases hne : (((collapseAux false (s.map Char.toLower)).dropWhile
      (fun c => decide (c = '-'))).reverse.dropWhile (fun c => decide (c = '-'))) = []
  · rw [hne] at hc
    simp at hc
  · rw [getLast?_dropWhile _ hne, List.getLast?_reverse] at hc
    have := dropWhile_head_not _ c hc
    simp only [decide_eq_false_iff_not] at this
    exact this

/-- Claim C5: cluster-name normalization — lowercase, collapse every maximal
run of non-alphanumeric characters to a single dash, trim leading and
trailing dashes — is idempotent. -/
theorem normalizeName_idempotent (s : List Char) :
    normalizeName (normalizeName s) = normalizeName s := by
  have hmem := normalizeName_mem s
  have hdd := normalizeName_noDD s
  show trimDash (collapseAux false ((normalizeName s).map Char.toLower)) = _
  rw [map_toLower_id _ hmem, collapseAux_id _ hmem hdd,
    trimDash_id _ (normalizeName_headOK s) (normalizeName_lastOK s)]

example : normalizeName ['-', 'A', 'b', '?', '?', '1', '-'] = ['a', 'b', '-', '1'] := by
  decide

/-- Unfolding: the reference split consumes a newline as a line end. -/
theorem auxConsNLf (l : List Char) :
    splitLinesAux false ('\n' :: l) = [] :: splitLinesAux false l := by
  simp [splitLinesAux]

/-- Unfolding: right after a carriage return the reference split swallows one
newline. -/
theorem auxConsNLt (l : List Char) :
    splitLinesAux true ('\n' :: l) = splitLinesAux false l := by
  simp [splitLinesAux]

/-- Unfolding: the reference split consumes a carriage return as a line end
and arms the newline-swallowing flag. -/
theorem auxConsCR (b : Bool) (l : List Char) :
    splitLinesAux b ('\r' :: l) = [] :: splitLinesAux true l := by
  have hne : ¬(('\r' : Char) = '\n') := by decide
  simp [splitLinesAux, hne]

/-- Unfolding: an ordinary character extends the current line. -/
theorem auxConsOther (b : Bool) {c : Char} (l : List Char)
    (h1 : ¬(c = '\n')) (h2 : ¬(c = '\r')) :
    splitLinesAux b (c :: l) = consHead c (splitLinesAux false l) := by
  simp [splitLinesAux, h1, h2]

/-- The newline-swallowing flag is irrelevant unless a newline is next. -/
theorem auxTF (l : List Char) (h : l.head? ≠ some '\n') :
    splitLinesAux true l = splitLinesAux false l := by
  cases l with
  | nil => rfl
  | cons c rest =>
    have hc : ¬(c = '\n') := fun hh => h (by rw [List.head?_cons, hh])
    simp [splitLinesAux, hc]

/-- Unfolding: splitting at a separator opens a new piece. -/
theorem splitOnChar_cons_sep (sep : Char) (l : List Char) :
    splitOnChar sep (sep :: l) = [] :: splitOnChar sep l := by
  simp [splitOnChar]

/-- Unfolding: a non-separator character extends the first piece. -/
theorem splitOnChar_cons_ne (sep : Char) {c : Char} (l : List Char)
    (h : ¬(c = sep)) :
    splitOnChar sep (c :: l) = consHead c (splitOnChar sep l) := by
  simp [splitOnChar, h]

/-- Splitting never yields an empty piece list. -/
theorem splitOnChar_ne_nil (sep : Char) : ∀ (s : List Char),
    splitOnChar sep s ≠ []
  | [] => by simp [splitOnChar]
  | c :: rest => by
    by_cases hc : c = sep
    · rw [hc, splitOnChar_cons_sep]
      simp
    · rw [splitOnChar_cons_ne sep rest hc]
      cases h : splitOnChar sep rest with
      | nil => exact absurd h (splitOnChar_ne_nil sep rest)
      | cons p ps => simp [consHead]

/-- Every character of every split piece comes from the input and is not the
separator. -/
theorem splitOnChar_pieces (sep : Char) : ∀ (s piece : List Char),
    piece ∈ splitOnChar sep s → ∀ c ∈ piece, c ∈ s ∧ ¬(c = sep)
  | [], piece => by
    intro hp c hc
    simp only [splitOnChar, List.mem_singleton] at hp
    rw [hp] at hc
    simp at hc
  | x :: rest, piece => by
    intro hp c hc
    by_cases hx : x = sep
    · rw [hx, splitOnChar_cons_sep] at hp
      rcases List.mem_cons.mp hp with h | h
      · rw [h] at hc
        simp at hc
      · have := splitOnChar_pieces sep rest piece h c hc
        exact ⟨List.mem_cons_of_mem x this.1, this.2⟩
    · rw [splitOnChar_cons_ne sep rest hx] at hp
      obtain ⟨p, ps, hX⟩ := List.exists_cons_of_ne_nil (splitOnChar_ne_nil sep rest)
      rw [hX] at hp
      simp only [consHead] at hp
      rcases List.mem_cons.mp hp with h | h
      · rw [h] at hc
        rcases List.mem_cons.mp hc with h2 | h2
        · exact ⟨h2 ▸ List.mem_cons_self x rest, h2 ▸ hx⟩
        · have := splitOnChar_pieces sep rest p (by rw [hX]; exact List.mem_cons_self p ps) c h2
          exact ⟨List.mem_cons_of_mem x this.1, this.2⟩
      · have := splitOnChar_pieces sep rest piece
          (by rw [hX]; exact List.mem_cons_of_mem p h) c hc
        exact ⟨List.mem_cons_of_mem x this.1, this.2⟩

/-- The last element under a default is a member of a nonempty list. -/
theorem getLastD_mem {α : Type} (l : List α) (d : α) (h : l ≠ []) :
    l.getLastD d ∈ l := by
  rw [List.getLastD_eq_getLast?, List.getLast?_eq_getLast l h]
  exact List.getLast_mem h

/-- A getLast? value is a member. -/
theorem getLast?_memC {α : Type} (l : List α) (c : α) (h : l.getLast? = some c) :
    c ∈ l := by
  cases l with
  | nil => simp at h
  | cons x rest =>
    rw [List.getLast?_eq_getLast (x :: rest) (by simp)] at h
    rw [← Option.some.inj h]
    exact List.getLast_mem (by simp)

/-- getLast? looks only at a nonempty second summand. -/
theorem getLast?_append_ne {α : Type} (l1 l2 : List α) (h : l2 ≠ []) :
    (l1 ++ l2).getLast? = l2.getLast? := by
  rw [List.getLast?_append, List.getLast?_eq_getLast l2 h]
  rfl

/-- getLast? skips a head in front of a nonempty tail. -/
theorem getLast?_cons_ne {α : Type} (a : α) (l : List α) (h : l ≠ []) :
    (a :: l).getLast? = l.getLast? := by
  have := getLast?_append_ne [a] l h
  simpa using this

/-- getLastD skips a head in front of a nonempty tail without changing the
default. -/
theorem getLastD_cons_ne {α : Type} (a d : α) (l : List α) (h : l ≠ []) :
    (a :: l).getLastD d = l.getLastD d := by
  rw [List.getLastD_eq_getLast?, List.getLastD_eq_getLast?, getLast?_cons_ne a l h]

/-- dropLast skips a head in front of a nonempty tail. -/
theorem dropLast_cons_ne {α : Type} (a : α) (l : List α) (h : l ≠ []) :
    (a :: l).dropLast = a :: l.dropLast := by
  have := List.dropLast_append_of_ne_nil [a] h
  simpa using this

/-- consHead distributes over appending behind a nonempty piece list. -/
theorem consHead_append (c : Char) (xs ys : List (List Char)) (h : xs ≠ []) :
    consHead c (xs ++ ys) = consHead c xs ++ ys := by
  cases xs with
  | nil => exact absurd rfl h
  | cons l ls => simp [consHead]

/-- Gluing a separator-free carry onto the input glues it onto the first
piece. -/
theorem prependHead_splitOnChar (sep : Char) : ∀ (carry d : List Char),
    sep ∉ carry →
    splitOnChar sep (carry ++ d) = prependHead carry (splitOnChar sep d)
  | [], d => by
    intro _
    obtain ⟨p, ps, hX⟩ := List.exists_cons_of_ne_nil (splitOnChar_ne_nil sep d)
    rw [List.nil_append, hX]
    simp [prependHead]
  | c :: carry, d => by
    intro h
    have hc : ¬(c = sep) := fun hh => h (hh ▸ List.mem_cons_self c carry)
    have hcarry : sep ∉ carry := fun hh => h (List.mem_cons_of_mem c hh)
    rw [List.cons_append, splitOnChar_cons_ne sep (carry ++ d) hc,
      prependHead_splitOnChar sep carry d hcarry]
    cases hX : splitOnChar sep d with
    | nil => exact absurd hX (splitOnChar_ne_nil sep d)
    | cons p ps => simp [prependHead, consHead]

/-- The carry-gluing step of the StreamLogs loop equals splitting with the
carry glued onto the input. -/
theorem combineLs (carry d : List Char) (h : '\r' ∉ carry) :
    (if 0 < carry.length then prependHead carry (splitOnChar '\r' d)
      else splitOnChar '\r' d) = splitOnChar '\r' (carry ++ d) := by
  cases carry with
  | nil => simp
  | cons c cs =>
    rw [if_pos (by simp), prependHead_splitOnChar '\r' (c :: cs) d h]

/-- dropTrailCR fixes a string with no carriage return. -/
theorem dropTrailCR_no_cr (l : List Char) (h : '\r' ∉ l) : dropTrailCR l = l := by
  unfold dropTrailCR
  rw [if_neg]
  intro hc
  exact h (getLast?_memC l '\r' hc)

/-- dropTrailCR skips a head in front of a nonempty tail. -/
theorem dropTrailCR_cons (c : Char) (s : List Char) (h : s ≠ []) :
    dropTrailCR (c :: s) = c :: dropTrailCR s := by
  unfold dropTrailCR
  rw [getLast?_cons_ne c s h]
  by_cases hcr : s.getLast? = some '\r'
  · rw [if_pos hcr, if_pos hcr, dropLast_cons_ne c s h]
  · rw [if_neg hcr, if_neg hcr]

/-- dropTrailCR skips a carriage-return-free left part. -/
theorem dropTrailCR_append (carry s : List Char) (h : '\r' ∉ carry) :
    dropTrailCR (carry ++ s) = carry ++ dropTrailCR s := by
  by_cases hs : s = []
  · rw [hs, List.append_nil]
    show dropTrailCR carry = carry ++ dropTrailCR []
    rw [dropTrailCR_no_cr carry h]
    simp [dropTrailCR]
  · unfold dropTrailCR
    rw [getLast?_append_ne carry s hs]
    by_cases hcr : s.getLast? = some '\r'
    · rw [if_pos hcr, if_pos hcr, List.dropLast_append_of_ne_nil carry hs]
    · rw [if_neg hcr, if_neg hcr]

/-- Step lemma for a line ended by a newline: the reference split of a
newline-free block followed by a newline is the carriage-return split of the
block, with a carriage return just before the newline absorbed into the
terminator, followed by the reference split of the remainder. -/
theorem splitA (t : List Char) : ∀ (s : List Char), '\n' ∉ s →
    splitLinesAux false (s ++ '\n' :: t) =
      splitOnChar '\r' (dropTrailCR s) ++ splitLinesAux false t := by
  intro s
  induction s with
  | nil =>
    intro _
    rw [List.nil_append, auxConsNLf]
    rfl
  | cons c s2 ih =>
    intro hs
    have hc : ¬(c = '\n') := fun h => hs (h ▸ List.mem_cons_self c s2)
    have hs2 : '\n' ∉ s2 := fun h => hs (List.mem_cons_of_mem c h)
    by_cases hcr : c = '\r'
    · subst hcr
      cases s2 with
      | nil =>
        rw [List.cons_append, List.nil_append, auxConsCR, auxConsNLt]
        rw [(by decide : dropTrailCR ['\r'] = ([] : List Char))]
        rfl
      | cons d s3 =>
        have hd : ¬(d = '\n') := fun h => hs2 (h ▸ List.mem_cons_self d s3)
        rw [List.cons_append, auxConsCR]
        rw [auxTF ((d :: s3) ++ '\n' :: t) (by
          rw [List.cons_append, List.head?_cons]
          intro hh
          exact hd (Option.some.inj hh))]
        rw [ih hs2, dropTrailCR_cons '\r' (d :: s3) (by simp),
          splitOnChar_cons_sep]
        rfl
    · rw [List.cons_append, auxConsOther false (s2 ++ '\n' :: t) hc hcr, ih hs2]
      by_cases h2 : s2 = []
      · subst h2
        have hdt : dropTrailCR [c] = [c] := by
          unfold dropTrailCR
          rw [if_neg (fun hh => hcr (Option.some.inj (by simpa using hh)))]
        rw [hdt, splitOnChar_cons_ne '\r' [] hcr]
        show consHead c (splitOnChar '\r' (dropTrailCR []) ++ _) = _
        rw [(by decide : dropTrailCR [] = ([] : List Char))]
        show consHead c ([[]] ++ _) = _
        rw [consHead_append c [[]] _ (by simp)]
        rfl
      · rw [dropTrailCR_cons c s2 h2, splitOnChar_cons_ne '\r' (dropTrailCR s2) hcr,
          consHead_append c (splitOnChar '\r' (dropTrailCR s2)) _
            (splitOnChar_ne_nil '\r' (dropTrailCR s2))]

/-- Step lemma for a prefix read: the reference split of a newline-free block
followed by anything is the carriage-return split of the block without its
last piece, followed by the reference split of that last piece glued onto the
remainder — provided no carriage-return/newline pair straddles the seam. -/
theorem splitB (t : List Char) : ∀ (u : List Char), '\n' ∉ u →
    (u.getLast? ≠ some '\r' ∨ t.head? ≠ some '\n') →
    splitLinesAux false (u ++ t) =
      (splitOnChar '\r' u).dropLast ++
        splitLinesAux false ((splitOnChar '\r' u).getLastD [] ++ t) := by
  intro u
  induction u with
  | nil =>
    intro _ _
    rfl
  | cons c u2 ih =>
    intro hu hcond
    have hc : ¬(c = '\n') := fun h => hu (h ▸ List.mem_cons_self c u2)
    have hu2 : '\n' ∉ u2 := fun h => hu (List.mem_cons_of_mem c h)
    by_cases hcr : c = '\r'
    · subst hcr
      cases u2 with
      | nil =>
        have hright : t.head? ≠ some '\n' := by
          rcases hcond with h | h
          · exact absurd (by decide : (['\r'] : List Char).getLast? = some '\r') h
          · exact h
        rw [List.cons_append, List.nil_append, auxConsCR, auxTF t hright]
        rw [splitOnChar_cons_sep]
        rfl
      | cons d u3 =>
        have hd : ¬(d = '\n') := fun h => hu2 (h ▸ List.mem_cons_self d u3)
        have hcond2 : (d :: u3).getLast? ≠ some '\r' ∨ t.head? ≠ some '\n' := by
          rcases hcond with h | h
          · left
            rwa [getLast?_cons_ne '\r' (d :: u3) (by simp)] at h
          · right
            exact h
        rw [List.cons_append, auxConsCR]
        rw [auxTF ((d :: u3) ++ t) (by
          rw [List.cons_append, List.head?_cons]
          intro hh
          exact hd (Option.some.inj hh))]
        rw [ih hu2 hcond2, splitOnChar_cons_sep]
        obtain ⟨p, ps, hX⟩ :=
          List.exists_cons_of_ne_nil (splitOnChar_ne_nil '\r' (d :: u3))
        rw [hX, dropLast_cons_ne [] (p :: ps) (by simp),
          getLastD_cons_ne [] [] (p :: ps) (by simp)]
        rfl
    · have hcond2 : u2.getLast? ≠ some '\r' ∨ t.head? ≠ some '\n' := by
        rcases hcond with h | h
        · cases u2 with
          | nil =>
            left
            simp
          | cons d u3 =>
            left
            rwa [getLast?_cons_ne c (d :: u3) (by simp)] at h
        · right
          exact h
      rw [List.cons_append, auxConsOther false (u2 ++ t) hc hcr, ih hu2 hcond2,
        splitOnChar_cons_ne '\r' u2 hcr]
      obtain ⟨p, ps, hX⟩ := List.exists_cons_of_ne_nil (splitOnChar_ne_nil '\r' u2)
      rw [hX]
      cases ps with
      | nil =>
        show consHead c ([] ++ splitLinesAux false (p ++ t)) =
          [] ++ splitLinesAux false ((c :: p) ++ t)
        rw [List.nil_append, List.nil_append, List.cons_append,
          auxConsOther false (p ++ t) hc hcr]
      | cons q qs =>
        show consHead c ((p :: q :: qs).dropLast ++
            splitLinesAux false ((p :: q :: qs).getLastD [] ++ t)) =
          (consHead c (p :: q :: qs)).dropLast ++
            splitLinesAux false ((consHead c (p :: q :: qs)).getLastD [] ++ t)
        rw [dropLast_cons_ne p (q :: qs) (by simp),
          getLastD_cons_ne p [] (q :: qs) (by simp)]
        show consHead c ((p :: (q :: qs).dropLast) ++ _) =
          ((c :: p) :: q :: qs).dropLast ++
            splitLinesAux false (((c :: p) :: q :: qs).getLastD [] ++ t)
        rw [dropLast_cons_ne (c :: p) (q :: qs) (by simp),
          getLastD_cons_ne (c :: p) [] (q :: qs) (by simp),
          consHead_append c (p :: (q :: qs).dropLast) _ (by simp)]
        rfl

/-- Taking at most the takeWhile length takes the same elements. -/
theorem take_eq_take_takeWhile {α : Type} (p : α → Bool) : ∀ (l : List α) (n : Nat),
    n ≤ (l.takeWhile p).length → l.take n = (l.takeWhile p).take n
  | l, 0, _ => by simp
  | [], n + 1, h => by simp at h
  | x :: rest, n + 1, h => by
    by_cases hx : p x
    · rw [List.takeWhile_cons, if_pos hx] at h ⊢
      rw [List.take_succ_cons, List.take_succ_cons,
        take_eq_take_takeWhile p rest n (by simpa using h)]
    · rw [List.takeWhile_cons, if_neg hx] at h
      simp at h

/-- dropWhile is dropping the takeWhile length. -/
theorem dropWhile_eq_drop_len {α : Type} (p : α → Bool) : ∀ (l : List α),
    l.dropWhile p = l.drop (l.takeWhile p).length
  | [] => rfl
  | x :: rest => by
    by_cases hx : p x
    · rw [List.dropWhile_cons, if_pos hx, List.takeWhile_cons, if_pos hx]
      rw [dropWhile_eq_drop_len p rest]
      rfl
    · rw [List.dropWhile_cons, if_neg hx, List.takeWhile_cons, if_neg hx]
      rfl

/-- readLine outcome when the first newline arrives within the buffer. -/
theorem readLine_normal (rest : List Char) (hne : rest ≠ [])
    (h16 : ¬ 16 ≤ (rest.takeWhile (fun c => decide (c ≠ '\n'))).length)
    (hlt : ¬ (rest.takeWhile (fun c => decide (c ≠ '\n'))).length = rest.length) :
    readLine rest =
      some (dropTrailCR (rest.takeWhile (fun c => decide (c ≠ '\n'))), false,
        rest.drop ((rest.takeWhile (fun c => decide (c ≠ '\n'))).length + 1)) := by
  simp only [readLine]
  rw [if_neg hne, if_neg h16, if_neg hlt]

/-- readLine outcome at a full buffer whose last byte is a carriage return:
ReadLine unreads that byte and reports a prefix. -/
theorem readLine_full_cr (rest : List Char) (hne : rest ≠ [])
    (h16 : 16 ≤ (rest.takeWhile (fun c => decide (c ≠ '\n'))).length)
    (hcr : (rest.take 16).getLast? = some '\r') :
    readLine rest = some ((rest.take 16).dropLast, true, rest.drop 15) := by
  simp only [readLine]
  rw [if_neg hne, if_pos h16, if_pos hcr]

/-- readLine outcome at a full buffer not ending in a carriage return. -/
theorem readLine_full_nocr (rest : List Char) (hne : rest ≠ [])
    (h16 : 16 ≤ (rest.takeWhile (fun c => decide (c ≠ '\n'))).length)
    (hcr : ¬ (rest.take 16).getLast? = some '\r') :
    readLine rest = some (rest.take 16, true, rest.drop 16) := by
  simp only [readLine]
  rw [if_neg hne, if_pos h16, if_neg hcr]

/-- Unfolding of one StreamLogs iteration on a prefix read. -/
theorem streamLoopF_some_true (fuel : Nat) (rest carry data rest2 : List Char)
    (h : readLine rest = some (data, true, rest2)) :
    streamLoopF (fuel + 1) rest carry =
      (if 0 < carry.length then prependHead carry (splitOnChar '\r' data)
        else splitOnChar '\r' data).dropLast ++
      streamLoopF fuel rest2
        ((if 0 < carry.length then prependHead carry (splitOnChar '\r' data)
          else splitOnChar '\r' data).getLastD []) := by
  simp [streamLoopF, h]

/-- Unfolding of one StreamLogs iteration on a complete-line read. -/
theorem streamLoopF_some_false (fuel : Nat) (rest carry data rest2 : List Char)
    (h : readLine rest = some (data, false, rest2)) :
    streamLoopF (fuel + 1) rest carry =
      (if 0 < carry.length then prependHead carry (splitOnChar '\r' data)
        else splitOnChar '\r' data) ++ streamLoopF fuel rest2 [] := by
  simp [streamLoopF, h]

/-- Loop invariant of StreamLogs: starting from a terminator-free carried
fragment and a newline-terminated remaining stream, the loop emits exactly
the reference line split of the carry glued onto the remainder. -/
theorem streamInv : ∀ (fuel : Nat) (rest carry : List Char),
    rest.length < fuel → '\n' ∉ carry → '\r' ∉ carry →
    (rest = [] → carry = []) →
    (rest ≠ [] → rest.getLast? = some '\n') →
    streamLoopF fuel rest carry = splitLinesAux false (carry ++ rest) := by
  intro fuel
  induction fuel with
  | zero =>
    intro rest carry hlen
    exact absurd hlen (by omega)
  | succ fuel ih =>
    intro rest carry hlen hcN hcR hnil hlast
    by_cases hrest : rest = []
    · subst hrest
      rw [hnil rfl]
      simp [streamLoopF, readLine, splitLinesAux]
    · have hlastN := hlast hrest
      have hNinRest : '\n' ∈ rest := getLast?_memC rest '\n' hlastN
      have hpreN : '\n' ∉ rest.takeWhile (fun c => decide (c ≠ '\n')) := by
        intro hmem
        have h2 := List.mem_takeWhile_imp hmem
        simp at h2
      have hdw : rest.dropWhile (fun c => decide (c ≠ '\n')) ≠ [] := by
        intro hdwnil
        have h2 := List.takeWhile_append_dropWhile (fun c => decide (c ≠ '\n')) rest
        rw [hdwnil, List.append_nil] at h2
        rw [← h2] at hNinRest
        exact hpreN hNinRest
      have hlenlt :
          (rest.takeWhile (fun c => decide (c ≠ '\n'))).length < rest.length := by
        have h2 := congrArg List.length
          (List.takeWhile_append_dropWhile (fun c => decide (c ≠ '\n')) rest)
        rw [List.length_append] at h2
        have h3 : 0 < (rest.dropWhile (fun c => decide (c ≠ '\n'))).length :=
          List.length_pos.mpr hdw
        omega
      by_cases h16 : 16 ≤ (rest.takeWhile (fun c => decide (c ≠ '\n'))).length
      · have h17 : 17 ≤ rest.length := by omega
        have hf16 : (rest.take 16).length = 16 := by
          rw [List.length_take]
          omega
        have hfne : rest.take 16 ≠ [] := by
          intro h
          rw [h] at hf16
          simp at hf16
        have hfN : '\n' ∉ rest.take 16 := by
          intro hmem
          rw [take_eq_take_takeWhile (fun c => decide (c ≠ '\n')) rest 16 h16] at hmem
          exact hpreN (List.mem_of_mem_take hmem)
        by_cases hcr : (rest.take 16).getLast? = some '\r'
        · -- full buffer ending in a carriage return: ReadLine unreads it
          have hread := readLine_full_cr rest hrest h16 hcr
          have hb : 15 < (rest.take 16).length := by omega
          have hr15 : rest.drop 15 = '\r' :: rest.drop 16 := by
            rw [List.drop_eq_getElem_cons (by omega : 15 < rest.length)]
            congr 1
            have hgl : (rest.take 16).getLast? = some ((rest.take 16)[15]) := by
              rw [List.getLast?_eq_getElem?, hf16]
              exact List.getElem?_eq_getElem hb
            rw [hgl] at hcr
            have h2 := Option.some.inj hcr
            rw [List.getElem_take] at h2
            exact h2
          have hfsplit : rest.take 16 = (rest.take 16).dropLast ++ ['\r'] := by
            have h2 := List.dropLast_append_getLast hfne
            have h3 : (rest.take 16).getLast hfne = '\r' := by
              have h4 := List.getLast?_eq_getLast (rest.take 16) hfne
              rw [h4] at hcr
              exact Option.some.inj hcr
            rw [h3] at h2
            exact h2.symm
          have hrestsplit : rest = (rest.take 16).dropLast ++ rest.drop 15 := by
            conv_lhs => rw [← List.take_append_drop 16 rest]
            rw [hr15, hfsplit]
            simp
          have hdataN : '\n' ∉ (rest.take 16).dropLast :=
            fun h => hfN (List.mem_of_mem_dropLast h)
          have hcarryN : '\n' ∉ carry ++ (rest.take 16).dropLast := by
            intro h
            rcases List.mem_append.mp h with h | h
            · exact hcN h
            · exact hdataN h
          have hXne := splitOnChar_ne_nil '\r' (carry ++ (rest.take 16).dropLast)
          have hc2mem := getLastD_mem _ [] hXne
          have hc2R : '\r' ∉
              (splitOnChar '\r' (carry ++ (rest.take 16).dropLast)).getLastD [] :=
            fun h => (splitOnChar_pieces '\r' _ _ hc2mem '\r' h).2 rfl
          have hc2N : '\n' ∉
              (splitOnChar '\r' (carry ++ (rest.take 16).dropLast)).getLastD [] :=
            fun h => hcarryN (splitOnChar_pieces '\r' _ _ hc2mem '\n' h).1
          have hr2ne : rest.drop 15 ≠ [] := by
            rw [hr15]
            simp
          have hr2last : rest.drop 15 ≠ [] → (rest.drop 15).getLast? = some '\n' := by
            intro h2
            rw [← getLast?_append_ne (rest.take 15) (rest.drop 15) h2,
              List.take_append_drop]
            exact hlastN
          have hlen2 : (rest.drop 15).length < fuel := by
            rw [List.length_drop]
            omega
          have hih := ih (rest.drop 15)
            ((splitOnChar '\r' (carry ++ (rest.take 16).dropLast)).getLastD [])
            hlen2 hc2N hc2R (fun h => absurd h hr2ne) hr2last
          rw [streamLoopF_some_true fuel rest carry _ _ hread,
            combineLs carry _ hcR, hih]
          conv_rhs => rw [hrestsplit]
          rw [← List.append_assoc,
            splitB (rest.drop 15) (carry ++ (rest.take 16).dropLast) hcarryN
              (Or.inr (by
                rw [hr15, List.head?_cons]
                intro h
                exact absurd (Option.some.inj h) (by decide)))]
        · -- full buffer not ending in a carriage return
          have hread := readLine_full_nocr rest hrest h16 hcr
          have hrestsplit : rest = rest.take 16 ++ rest.drop 16 :=
            (List.take_append_drop 16 rest).symm
          have hr2ne : rest.drop 16 ≠ [] := by
            intro h
            rw [h, List.append_nil] at hrestsplit
            exact hfN (hrestsplit ▸ hNinRest)
          have hcarryN : '\n' ∉ carry ++ rest.take 16 := by
            intro h
            rcases List.mem_append.mp h with h | h
            · exact hcN h
            · exact hfN h
          have hXne := splitOnChar_ne_nil '\r' (carry ++ rest.take 16)
          have hc2mem := getLastD_mem _ [] hXne
          have hc2R : '\r' ∉ (splitOnChar '\r' (carry ++ rest.take 16)).getLastD [] :=
            fun h => (splitOnChar_pieces '\r' _ _ hc2mem '\r' h).2 rfl
          have hc2N : '\n' ∉ (splitOnChar '\r' (carry ++ rest.take 16)).getLastD [] :=
            fun h => hcarryN (splitOnChar_pieces '\r' _ _ hc2mem '\n' h).1
          have hr2last : rest.drop 16 ≠ [] → (rest.drop 16).getLast? = some '\n' := by
            intro h2
            rw [← getLast?_append_ne (rest.take 16) (rest.drop 16) h2,
              List.take_append_drop]
            exact hlastN
          have hlen2 : (rest.drop 16).length < fuel := by
            rw [List.length_drop]
            omega
          have hih := ih (rest.drop 16)
            ((splitOnChar '\r' (carry ++ rest.take 16)).getLastD [])
            hlen2 hc2N hc2R (fun h => absurd h hr2ne) hr2last
          rw [streamLoopF_some_true fuel rest carry _ _ hread,
            combineLs carry _ hcR, hih]
          conv_rhs => rw [hrestsplit]
          rw [← List.append_assoc,
            splitB (rest.drop 16) (carry ++ rest.take 16) hcarryN
              (Or.inl (by
                rw [getLast?_append_ne carry (rest.take 16) hfne]
                exact hcr))]
      · -- the first newline arrives within the buffer: a complete line
        obtain ⟨h0, dwt, hdweq⟩ := List.exists_cons_of_ne_nil hdw
        have h0nl : h0 = '\n' := by
          have h2 := dropWhile_head_not rest h0 (by rw [hdweq]; rfl)
          simpa using h2
        have hrdecomp : rest =
            rest.takeWhile (fun c => decide (c ≠ '\n')) ++ '\n' :: dwt := by
          conv_lhs =>
            rw [← List.takeWhile_append_dropWhile (fun c => decide (c ≠ '\n')) rest]
          rw [hdweq, h0nl]
        have hdrop :
            rest.drop ((rest.takeWhile (fun c => decide (c ≠ '\n'))).length + 1)
              = dwt := by
          have h2 : rest.drop (rest.takeWhile (fun c => decide (c ≠ '\n'))).length
              = '\n' :: dwt := by
            rw [← dropWhile_eq_drop_len, hdweq, h0nl]
          rw [← List.drop_drop 1
            (rest.takeWhile (fun c => decide (c ≠ '\n'))).length rest, h2]
          rfl
        have hread := readLine_normal rest hrest h16 (by omega)
        have hL := congrArg List.length hrdecomp
        rw [List.length_append, List.length_cons] at hL
        have hpreNc : '\n' ∉ carry ++ rest.takeWhile (fun c => decide (c ≠ '\n')) := by
          intro h
          rcases List.mem_append.mp h with h | h
          · exact hcN h
          · exact hpreN h
        have hdwtlast : dwt ≠ [] → dwt.getLast? = some '\n' := by
          intro h2
          have h3 : rest = (rest.takeWhile (fun c => decide (c ≠ '\n')) ++ ['\n'])
              ++ dwt := by
            conv_lhs => rw [hrdecomp]
            rw [List.append_assoc]
            rfl
          rw [← getLast?_append_ne
            (rest.takeWhile (fun c => decide (c ≠ '\n')) ++ ['\n']) dwt h2, ← h3]
          exact hlastN
        have hlen2 : dwt.length < fuel := by omega
        have hih := ih dwt [] hlen2 (by simp) (by simp) (fun _ => rfl) hdwtlast
        rw [streamLoopF_some_false fuel rest carry _ _ hread,
          combineLs carry _ hcR, hdrop, hih, List.nil_append]
        conv_rhs => rw [hrdecomp]
        rw [← List.append_assoc,
          splitA dwt (carry ++ rest.takeWhile (fun c => decide (c ≠ '\n'))) hpreNc,
          dropTrailCR_append carry (rest.takeWhile (fun c => decide (c ≠ '\n'))) hcR]

/-- Claim C1, counterexample: a payload ending in a bare carriage return makes
StreamLogs emit one extra empty line after the final line, and a 16-byte
payload with no terminator at all — exactly one full buffer — is swallowed
whole, its unterminated final line never emitted; either payload refutes the
claimed equality with the reference line split. -/
theorem streamLogs_trailing_cr_cx :
    streamEmits ['a', '\r'] = [['a'], []]
    ∧ splitLines ['a', '\r'] = [['a']]
    ∧ ¬ streamEmits ['a', '\r'] = splitLines ['a', '\r']
    ∧ streamEmits (List.replicate 16 'a') = []
    ∧ splitLines (List.replicate 16 'a') = [List.replicate 16 'a'] := by
  decide

/-- Claim C1 as amended: for every log payload that ends with a newline — and
under bufio buffering the emitted lines depend only on the payload, not on the
chunk partition the stream delivers it in — StreamLogs emits, in order,
exactly the logical lines obtained by splitting the whole payload on newline
and carriage-return terminators (a carriage-return/newline pair counting as
one terminator), correctly reassembling lines that span read boundaries. -/
theorem streamLogs_emits_lines (content : List Char)
    (h : content.getLast? = some '\n') :
    streamEmits content = splitLines content := by
  have h2 := streamInv (content.length + 1) content [] (by omega) (by simp)
    (by simp) (fun _ => rfl) (fun _ => h)
  simpa [streamEmits, splitLines] using h2

/-- Witness for the amended claim C1 at a concrete payload mixing both
terminator kinds. -/
theorem streamLogs_emits_lines_witness :
    (['a', '\r', 'b', '\n'] : List Char).getLast? = some '\n'
    ∧ streamEmits ['a', '\r', 'b', '\n'] = splitLines ['a', '\r', 'b', '\n'] :=
  ⟨by decide, streamLogs_emits_lines ['a', '\r', 'b', '\n'] (by decide)⟩

end Kobs
